import Mathlib

set_option maxHeartbeats 1000000

/-!
Verification of the Express-Starter-Code repository against its
natural-language specification.

Part 1 models the consistent-hashing core (HashFunction, Ring,
RingManager) described in the spec.  The repository's README advertises
consistent hashing but the implementation file is absent from the
reviewed sources, so every definition in this part is modelled from the
spec's own algorithm description (spec sections 3, 4.1-4.3).

Part 2 models the JavaScript code that is present in the sources:
the global error handler, the Joi registration validator, and the
Cloudinary upload option plumbing.
-/

namespace ConsistentHash

/-- Modelled from the spec: the consistent-hashing implementation is missing
from the reviewed sources.  `Node` is the spec's value object
`{id: string, address: string, weight: int ≥ 1}` identifying one backend. -/
structure Node where
  id : String
  address : String
  weight : Nat
deriving DecidableEq, Repr

/-- Modelled from the spec: `VirtualNode` is `{hashPoint: HashSpace, owner: Node}`,
with `HashSpace = [0, 2^32)`. -/
structure VirtualNode where
  hashPoint : Nat
  owner : Node
deriving DecidableEq, Repr

/-- One step of the 32-bit FNV-1a mixing function: xor in a byte/codepoint,
multiply by the FNV prime, reduce modulo `2^32`. -/
def hashStep (h b : Nat) : Nat := ((h ^^^ b) * 16777619) % 4294967296

/-- Modelled from the spec: the spec's `hash(bytes) -> uint32` contract
(section 4.1) requires a deterministic, unseeded mapping into `[0, 2^32)` and
states that any standard non-cryptographic hash suffices.  We model it as
32-bit FNV-1a over the string's character codes. -/
def hash (s : String) : Nat := s.data.foldl (fun h c => hashStep h c.toNat) 2166136261

/-- Modelled from the spec: a Node of weight `w` with base replica count `R`
produces `R * w` VirtualNodes, the `i`-th at `hash(node.id ++ "#" ++ i)`. -/
def vnodesOf (reps : Nat) (n : Node) : List VirtualNode :=
  (List.range (reps * n.weight)).map (fun i => ⟨hash (n.id ++ "#" ++ toString i), n⟩)

/-- All virtual nodes generated by a node list (spec section 4.2 step 1-2). -/
def allVNodes (nodes : List Node) (reps : Nat) : List VirtualNode :=
  nodes.flatMap (vnodesOf reps)

/-- Lexicographic comparison of character lists by codepoint. -/
def charListLE : List Char → List Char → Bool
  | [], _ => true
  | _ :: _, [] => false
  | a :: as, b :: bs =>
      if a.toNat < b.toNat then true
      else if b.toNat < a.toNat then false
      else charListLE as bs

/-- Lexicographic order on node ids (spec: ties broken by owner id,
lexicographic). -/
def idLE (a b : String) : Bool := charListLE a.data b.data

/-- Modelled from the spec: the Ring sort order — ascending by `hashPoint`,
ties broken by owner id (lexicographic). -/
def vnLE (a b : VirtualNode) : Prop :=
  a.hashPoint < b.hashPoint ∨
    (a.hashPoint = b.hashPoint ∧ idLE a.owner.id b.owner.id = true)

instance : DecidableRel vnLE := fun a b => by
  unfold vnLE
  infer_instance

/-- Fuel-indexed helper for the hashPoint dedup pass; the fuel is an upper
bound on the list length, so it never runs out on the intended call. -/
def dedupAux : Nat → List VirtualNode → List VirtualNode
  | _, [] => []
  | 0, _ :: _ => []
  | fuel + 1, v :: rest =>
      v :: dedupAux fuel (rest.filter (fun w => w.hashPoint != v.hashPoint))

/-- Modelled from the spec: drop VirtualNodes whose hashPoint collides with an
already-inserted one; the earlier element in sort order wins (spec 4.2 step 3). -/
def dedupByHash (l : List VirtualNode) : List VirtualNode := dedupAux l.length l

/-- Modelled from the spec: `buildRing(nodes, replicasPerWeight)` collects all
virtual nodes, sorts them ascending by hashPoint with the owner-id tie break,
and drops later-inserted hashPoint duplicates. -/
def buildRing (nodes : List Node) (reps : Nat) : List VirtualNode :=
  dedupByHash ((allVNodes nodes reps).insertionSort vnLE)

/-- Modelled from the spec's error taxonomy (section 7). -/
inductive RingError where
  | DuplicateNode
  | UnknownNode
  | NoAvailableNode
deriving DecidableEq, Repr

/-- Modelled from the spec: RingManager state — the registered node set, the
current Ring snapshot, and the fixed `replicasPerWeight`. -/
structure RingManager where
  nodes : List Node
  ring : List VirtualNode
  reps : Nat
deriving DecidableEq, Repr

/-- Modelled from the spec: a RingManager constructed at startup from a node
descriptor list and its replica tunable. -/
def RingManager.create (cfg : List Node) (reps : Nat) : RingManager :=
  ⟨cfg, buildRing cfg reps, reps⟩

/-- Modelled from the spec: `AddNode(node)` fails with `DuplicateNode` if the
id is already registered (leaving the state untouched), otherwise rebuilds the
Ring from the enlarged node set and swaps both in.  The result is the state
after the call together with the returned error, if any. -/
def addNode (rm : RingManager) (n : Node) : RingManager × Option RingError :=
  if rm.nodes.any (fun m => m.id == n.id) then (rm, some .DuplicateNode)
  else
    (⟨rm.nodes ++ [n], buildRing (rm.nodes ++ [n]) rm.reps, rm.reps⟩, none)

/-- Modelled from the spec: `RemoveNode(id)` fails with `UnknownNode` if the id
is not registered (leaving the state untouched), otherwise rebuilds the Ring
from the shrunken node set and swaps both in. -/
def removeNode (rm : RingManager) (id : String) : RingManager × Option RingError :=
  if rm.nodes.any (fun m => m.id == id) then
    (⟨rm.nodes.filter (fun m => m.id != id),
      buildRing (rm.nodes.filter (fun m => m.id != id)) rm.reps, rm.reps⟩, none)
  else (rm, some .UnknownNode)

/-- Modelled from the spec: `Select(key)` hashes the key, locates the first
VirtualNode with `hashPoint ≥ h` (wrapping to index 0 when none exists — on a
sorted ring this is exactly what the spec's binary search returns), then walks
forward with wraparound skipping VirtualNodes whose owner is unhealthy and
returns the first healthy owner; `NoAvailableNode` when the walk finds none.
`List.findIdx` returns `ring.length` when no point qualifies and
`rotate ring.length = ring`, which is the spec's wrap to index 0. -/
def select (rm : RingManager) (health : String → Bool) (key : String) :
    Except RingError Node :=
  let h := hash key
  let start := rm.ring.findIdx (fun v => decide (h ≤ v.hashPoint))
  match (rm.ring.rotate start).find? (fun v => health v.owner.id) with
  | some v => .ok v.owner
  | none => .error .NoAvailableNode

/-- Validity of a registered node list: ids are pairwise distinct (the spec
makes id the identity of a Node) and every weight is ≥ 1 (data-model bound
`weight: int ≥ 1`). -/
def validNodes (ns : List Node) : Prop :=
  (∀ n ∈ ns, 1 ≤ n.weight) ∧ (ns.map Node.id).Nodup

/-- RingManager states reachable through the spec's lifecycle: construction
from a valid configuration, then successful `AddNode`/`RemoveNode` calls
(failed calls return an error and leave the state untouched). -/
inductive Reachable : RingManager → Prop where
  | create : ∀ cfg reps, validNodes cfg → 1 ≤ reps →
      Reachable (RingManager.create cfg reps)
  | add : ∀ rm n, Reachable rm → 1 ≤ n.weight → Reachable (addNode rm n).1
  | remove : ∀ rm id, Reachable rm → Reachable (removeNode rm id).1

/-- Well-formedness: the held Ring is the one `buildRing` produces from the
registered node set, the node set is valid, and the replica tunable is ≥ 1. -/
def WF (rm : RingManager) : Prop :=
  rm.ring = buildRing rm.nodes rm.reps ∧ validNodes rm.nodes ∧ 1 ≤ rm.reps

end ConsistentHash

namespace ExpressApp

/-- A JavaScript error value as the global error handler sees it: the
`message` string plus the optional numeric `status` and `statusCode`
properties (`none` models an absent property). -/
structure JsError where
  message : String
  status : Option Nat
  statusCode : Option Nat
deriving DecidableEq, Repr

/-- JavaScript `x || d` on an optional number: an absent property and the
falsy value `0` both fall through to the default. -/
def jsOrNat (v : Option Nat) (d : Nat) : Nat :=
  match v with
  | some s => if s = 0 then d else s
  | none => d

/-- JavaScript `s || d` on a string: the empty string is falsy. -/
def jsOrStr (s d : String) : String := if s = "" then d else s

/-- `new AppError(message, statusCode)` from src/utils/errorHandler.js: the
constructor stores the code in `this.statusCode` and never sets `status`. -/
def mkAppError (message : String) (statusCode : Nat) : JsError :=
  { message := message, status := none, statusCode := some statusCode }

/-- The HTTP response a handler produces: status code and message body. -/
structure Response where
  status : Nat
  message : String
deriving DecidableEq, Repr

/-- `globalErrorHandler` from src/utils/errorHandler.js: responds with status
`err.status || 500` and message `err.message || "Internal Server Error"`. -/
def globalErrorHandler (err : JsError) : Response :=
  { status := jsOrNat err.status 500,
    message := jsOrStr err.message "Internal Server Error" }

/-- The four keys of the Joi registration schema in
src/middleware/authMiddleware.js (`validateRegistration`). -/
def registrationKeys : List String :=
  ["username", "email", "password", "confirmPassword"]

/-- `validateRegistration` from src/middleware/authMiddleware.js, with Joi's
per-field validators abstracted as the parameter `fieldOk`.  Joi object
schemas reject unknown keys by default (`allowUnknown` is false), so a body
passes only when every key it carries is one of the four schema keys with an
accepted value and every schema key (all four are `.required()`) is present. -/
def validateRegistration (fieldOk : String → String → Bool)
    (body : List (String × String)) : Bool :=
  body.all (fun kv => registrationKeys.contains kv.1 && fieldOk kv.1 kv.2) &&
    registrationKeys.all (fun k => (body.lookup k).isSome)

/-- The `name` the register controller destructures from the request body
(`const { name, username, email, password } = req.body` in
src/controllers/authController.js): property lookup on the parsed body. -/
def registerNameField (body : List (String × String)) : Option String :=
  body.lookup "name"

/-- The options argument of `uploadToCloudinary` (src/config/cloudinary.js):
every option its doc comment documents, `none` modelling an absent property. -/
structure UploadOptions where
  folder : Option String := none
  publicId : Option String := none
  quality : Option String := none
  fetch_format : Option String := none
  width : Option Nat := none
  height : Option Nat := none
  crop : Option String := none
  transformation : List (String × String) := []
deriving DecidableEq, Repr

/-- The `uploadOptions` object `uploadToCloudinary` passes to
`cloudinary.uploader.upload` (src/config/cloudinary.js lines 29-59): after
merging `options` over the `{folder: "uploads"}` default it contains only
`folder`, `resource_type: "image"`, and — when `config.publicId` is truthy
(present and non-empty) — `public_id`.  The file buffer only forms the data
URI, not the options. -/
def uploadToCloudinaryOptions (options : UploadOptions) : List (String × String) :=
  [("folder", (options.folder).getD "uploads"), ("resource_type", "image")] ++
    (match options.publicId with
     | some pid => if pid = "" then [] else [("public_id", pid)]
     | none => [])

/-- The options `uploadProfileImage` supplies (src/config/cloudinary.js lines
104-112): folder "profiles", a 500x500 fill crop, auto quality, and the given
public id. -/
def uploadProfileImageOptions (publicId : Option String) : UploadOptions :=
  { folder := some "profiles", width := some 500, height := some 500,
    crop := some "fill", quality := some "auto", publicId := publicId }

end ExpressApp

namespace ConsistentHash

/-! ### Order lemmas for the ring sort relation -/

theorem char_eq_of_toNat_eq {x y : Char} (h : x.toNat = y.toNat) : x = y :=
  Char.eq_of_val_eq (UInt32.toNat.inj h)

theorem string_eq_of_data_eq {a b : String} (h : a.data = b.data) : a = b := by
  cases a
  cases b
  exact congrArg String.mk h

theorem charListLE_total : ∀ a b : List Char,
    charListLE a b = true ∨ charListLE b a = true := by
  intro a
  induction a with
  | nil => intro b; left; rfl
  | cons x xs ih =>
    intro b
    cases b with
    | nil => right; rfl
    | cons y ys =>
      by_cases hxy : x.toNat < y.toNat
      · left; simp [charListLE, hxy]
      · by_cases hyx : y.toNat < x.toNat
        · right; simp [charListLE, hyx]
        · rcases ih ys with h | h
          · left; simp [charListLE, hxy, hyx, h]
          · right; simp [charListLE, hxy, hyx, h]

theorem charListLE_trans : ∀ a b c : List Char,
    charListLE a b = true → charListLE b c = true → charListLE a c = true := by
  intro a
  induction a with
  | nil => intro b c _ _; rfl
  | cons x xs ih =>
    intro b c hab hbc
    cases b with
    | nil => simp [charListLE] at hab
    | cons y ys =>
      cases c with
      | nil => simp [charListLE] at hbc
      | cons z zs =>
        by_cases hxy : x.toNat < y.toNat
        · by_cases hyz : y.toNat < z.toNat
          · simp [charListLE, Nat.lt_trans hxy hyz]
          · by_cases hzy : z.toNat < y.toNat
            · simp [charListLE, hyz, hzy] at hbc
            · have hxz : x.toNat < z.toNat := by omega
              simp [charListLE, hxz]
        · by_cases hyx : y.toNat < x.toNat
          · simp [charListLE, hxy, hyx] at hab
          · have hab' : charListLE xs ys = true := by
              simpa [charListLE, hxy, hyx] using hab
            by_cases hyz : y.toNat < z.toNat
            · have hxz : x.toNat < z.toNat := by omega
              simp [charListLE, hxz]
            · by_cases hzy : z.toNat < y.toNat
              · simp [charListLE, hyz, hzy] at hbc
              · have hbc' : charListLE ys zs = true := by
                  simpa [charListLE, hyz, hzy] using hbc
                have hxz : ¬ x.toNat < z.toNat := by omega
                have hzx : ¬ z.toNat < x.toNat := by omega
                simpa [charListLE, hxz, hzx] using ih ys zs hab' hbc'

theorem charListLE_antisymm : ∀ a b : List Char,
    charListLE a b = true → charListLE b a = true → a = b := by
  intro a
  induction a with
  | nil =>
    intro b _ hba
    cases b with
    | nil => rfl
    | cons y ys => simp [charListLE] at hba
  | cons x xs ih =>
    intro b hab hba
    cases b with
    | nil => simp [charListLE] at hab
    | cons y ys =>
      by_cases hxy : x.toNat < y.toNat
      · have h1 : ¬ y.toNat < x.toNat := by omega
        simp [charListLE, hxy, h1] at hba
      · by_cases hyx : y.toNat < x.toNat
        · simp [charListLE, hxy, hyx] at hab
        · have hxyeq : x = y := char_eq_of_toNat_eq (by omega)
          subst hxyeq
          have hab' : charListLE xs ys = true := by
            simpa [charListLE, hxy, hyx] using hab
          have hba' : charListLE ys xs = true := by
            simpa [charListLE, hxy, hyx] using hba
          rw [ih ys hab' hba']

theorem idLE_total (a b : String) : idLE a b = true ∨ idLE b a = true :=
  charListLE_total a.data b.data

theorem idLE_trans {a b c : String} (h1 : idLE a b = true) (h2 : idLE b c = true) :
    idLE a c = true :=
  charListLE_trans a.data b.data c.data h1 h2

theorem idLE_antisymm {a b : String} (h1 : idLE a b = true) (h2 : idLE b a = true) :
    a = b :=
  string_eq_of_data_eq (charListLE_antisymm a.data b.data h1 h2)

theorem vnLE_total (a b : VirtualNode) : vnLE a b ∨ vnLE b a := by
  unfold vnLE
  rcases Nat.lt_trichotomy a.hashPoint b.hashPoint with h | h | h
  · exact Or.inl (Or.inl h)
  · rcases idLE_total a.owner.id b.owner.id with h' | h'
    · exact Or.inl (Or.inr ⟨h, h'⟩)
    · exact Or.inr (Or.inr ⟨h.symm, h'⟩)
  · exact Or.inr (Or.inl h)

theorem vnLE_trans {a b c : VirtualNode} (h1 : vnLE a b) (h2 : vnLE b c) :
    vnLE a c := by
  unfold vnLE at h1 h2 ⊢
  rcases h1 with h1 | ⟨h1e, h1s⟩
  · rcases h2 with h2 | ⟨h2e, _⟩
    · exact Or.inl (Nat.lt_trans h1 h2)
    · exact Or.inl (h2e ▸ h1)
  · rcases h2 with h2 | ⟨h2e, h2s⟩
    · exact Or.inl (h1e ▸ h2)
    · exact Or.inr ⟨h1e.trans h2e, idLE_trans h1s h2s⟩

/-- `vnLE` is antisymmetric up to hashPoint and owner id; it cannot separate
two owners that share an id but differ in address or weight. -/
theorem vnLE_antisymm_ids {a b : VirtualNode} (h1 : vnLE a b) (h2 : vnLE b a) :
    a.hashPoint = b.hashPoint ∧ a.owner.id = b.owner.id := by
  unfold vnLE at h1 h2
  rcases h1 with h1 | ⟨h1e, h1s⟩
  · rcases h2 with h2 | ⟨h2e, _⟩
    · omega
    · omega
  · rcases h2 with h2 | ⟨h2e, h2s⟩
    · omega
    · exact ⟨h1e, idLE_antisymm h1s h2s⟩

/-- Two sorted lists that are permutations of each other are equal, provided
the order relation is antisymmetric on the elements actually present. -/
theorem sorted_perm_eq {α : Type} {r : α → α → Prop} :
    ∀ {l₁ l₂ : List α},
      (∀ x ∈ l₁, ∀ y ∈ l₁, r x y → r y x → x = y) →
      l₁.Perm l₂ → l₁.Sorted r → l₂.Sorted r → l₁ = l₂ := by
  intro l₁
  induction l₁ with
  | nil =>
    intro l₂ _ p _ _
    exact p.nil_eq
  | cons a t ih =>
    intro l₂ anti p s₁ s₂
    cases l₂ with
    | nil => exact absurd p.symm.nil_eq (by simp)
    | cons b t₂ =>
      have hab : a = b := by
        have hmem_b : b ∈ a :: t := p.symm.subset (List.mem_cons_self b t₂)
        have hmem_a : a ∈ b :: t₂ := p.subset (List.mem_cons_self a t)
        rcases List.mem_cons.mp hmem_b with h | h
        · exact h.symm
        · rcases List.mem_cons.mp hmem_a with h' | h'
          · exact h'
          · have hrab : r a b := (List.sorted_cons.mp s₁).1 b h
            have hrba : r b a := (List.sorted_cons.mp s₂).1 a h'
            exact anti a (List.mem_cons_self a t) b (List.mem_cons_of_mem a h)
              hrab hrba
      subst hab
      have pt : t.Perm t₂ := p.cons_inv
      have ht : t = t₂ :=
        ih (fun x hx y hy => anti x (List.mem_cons_of_mem a hx) y
            (List.mem_cons_of_mem a hy))
          pt (List.sorted_cons.mp s₁).2 (List.sorted_cons.mp s₂).2
      rw [ht]

end ConsistentHash

namespace ConsistentHash

/-! ### Lemmas about the hashPoint dedup pass -/

theorem dedupAux_congr : ∀ {fuel₁ fuel₂ : Nat} {l : List VirtualNode},
    l.length ≤ fuel₁ → l.length ≤ fuel₂ → dedupAux fuel₁ l = dedupAux fuel₂ l := by
  intro fuel₁
  induction fuel₁ with
  | zero =>
    intro fuel₂ l h1 _
    have hl : l = [] := List.length_eq_zero.mp (Nat.le_zero.mp h1)
    subst hl
    cases fuel₂ <;> rfl
  | succ f ih =>
    intro fuel₂ l h1 h2
    cases l with
    | nil => cases fuel₂ <;> rfl
    | cons v rest =>
      cases fuel₂ with
      | zero => simp at h2
      | succ f₂ =>
        simp only [dedupAux, List.cons.injEq, true_and]
        exact ih
          (le_trans (List.length_filter_le _ _) (Nat.le_of_succ_le_succ h1))
          (le_trans (List.length_filter_le _ _) (Nat.le_of_succ_le_succ h2))

theorem dedupByHash_nil : dedupByHash [] = [] := rfl

theorem dedupByHash_cons (v : VirtualNode) (rest : List VirtualNode) :
    dedupByHash (v :: rest) =
      v :: dedupByHash (rest.filter (fun w => w.hashPoint != v.hashPoint)) := by
  unfold dedupByHash
  simp only [List.length_cons, dedupAux, List.cons.injEq, true_and]
  exact dedupAux_congr (List.length_filter_le _ _) le_rfl

theorem dedupAux_sublist : ∀ (fuel : Nat) (l : List VirtualNode),
    (dedupAux fuel l).Sublist l := by
  intro fuel
  induction fuel with
  | zero => intro l; cases l <;> simp [dedupAux]
  | succ f ih =>
    intro l
    cases l with
    | nil => simp [dedupAux]
    | cons v rest =>
      simp only [dedupAux]
      exact ((ih _).trans (List.filter_sublist _)).cons₂ v

theorem dedupByHash_sublist (l : List VirtualNode) : (dedupByHash l).Sublist l :=
  dedupAux_sublist _ _

/-- `find?` commutes with a filter whose predicate is implied by the search
predicate. -/
theorem find?_filter_of_imp {α : Type} {p q : α → Bool} :
    ∀ l : List α, (∀ x, p x = true → q x = true) →
      (l.filter q).find? p = l.find? p := by
  intro l h
  induction l with
  | nil => rfl
  | cons a t iht =>
    by_cases hq : q a
    · rw [List.filter_cons_of_pos hq]
      by_cases hp : p a
      · rw [List.find?_cons_of_pos _ hp, List.find?_cons_of_pos _ hp]
      · rw [List.find?_cons_of_neg _ hp, List.find?_cons_of_neg _ hp]
        exact iht
    · have hp : ¬ p a = true := fun hpa => hq (h a hpa)
      rw [List.filter_cons_of_neg hq, List.find?_cons_of_neg _ hp]
      exact iht

/-- Membership in the dedup pass: exactly the first element carrying each
hashPoint survives. -/
theorem mem_dedupAux_iff : ∀ (fuel : Nat) (l : List VirtualNode), l.length ≤ fuel →
    ∀ v : VirtualNode,
      (v ∈ dedupAux fuel l ↔
        l.find? (fun w => w.hashPoint == v.hashPoint) = some v) := by
  intro fuel
  induction fuel with
  | zero =>
    intro l h v
    have hl : l = [] := List.length_eq_zero.mp (Nat.le_zero.mp h)
    subst hl
    simp [dedupAux]
  | succ f ih =>
    intro l h v
    cases l with
    | nil => simp [dedupAux]
    | cons w rest =>
      have hrest : rest.length ≤ f := Nat.le_of_succ_le_succ h
      have hfil : (rest.filter (fun u => u.hashPoint != w.hashPoint)).length ≤ f :=
        le_trans (List.length_filter_le _ _) hrest
      simp only [dedupAux, List.mem_cons]
      rw [List.find?_cons_eq_some]
      by_cases hvw : v = w
      · subst hvw
        simp
      · by_cases hhash : (w.hashPoint == v.hashPoint) = true
        · have hne : ¬ v ∈ dedupAux f
              (rest.filter fun u => u.hashPoint != w.hashPoint) := by
            intro hmem
            have hfind := (ih _ hfil v).mp hmem
            have hvmem := List.mem_of_find?_eq_some hfind
            have hpass := List.of_mem_filter hvmem
            simp only [bne_iff_ne, ne_eq] at hpass
            simp only [beq_iff_eq] at hhash
            exact hpass hhash.symm
          constructor
          · rintro (h' | h')
            · exact absurd h' hvw
            · exact absurd h' hne
          · rintro (⟨_, hwv⟩ | ⟨hnp, _⟩)
            · exact absurd hwv.symm hvw
            · rw [hhash] at hnp
              simp at hnp
        · have hstep : (rest.filter fun u => u.hashPoint != w.hashPoint).find?
              (fun u => u.hashPoint == v.hashPoint) =
              rest.find? (fun u => u.hashPoint == v.hashPoint) := by
            apply find?_filter_of_imp
            intro x hx
            simp only [beq_iff_eq] at hx
            simp only [bne_iff_ne, ne_eq, hx]
            simp only [beq_iff_eq] at hhash
            intro hxw
            exact hhash hxw.symm
          rw [ih _ hfil v, hstep]
          constructor
          · rintro (h' | h')
            · exact absurd h' hvw
            · exact Or.inr ⟨by simp [hhash], h'⟩
          · rintro (⟨hp, _⟩ | ⟨_, h'⟩)
            · exact absurd hp hhash
            · exact Or.inr h'

theorem mem_dedupByHash_iff (l : List VirtualNode) (v : VirtualNode) :
    v ∈ dedupByHash l ↔ l.find? (fun w => w.hashPoint == v.hashPoint) = some v :=
  mem_dedupAux_iff _ _ le_rfl v

/-- The dedup pass preserves the set of hashPoints. -/
theorem exists_hash_dedupByHash (l : List VirtualNode) (q : Nat) :
    (∃ v ∈ dedupByHash l, v.hashPoint = q) ↔ ∃ v ∈ l, v.hashPoint = q := by
  constructor
  · rintro ⟨v, hv, rfl⟩
    exact ⟨v, (dedupByHash_sublist l).subset hv, rfl⟩
  · rintro ⟨v, hv, rfl⟩
    have hsome : (l.find? (fun w => w.hashPoint == v.hashPoint)).isSome := by
      rw [List.find?_isSome]
      exact ⟨v, hv, by simp⟩
    obtain ⟨u, hu⟩ := Option.isSome_iff_exists.mp hsome
    have huhash : u.hashPoint = v.hashPoint := by
      have := List.find?_some hu
      simpa using this
    refine ⟨u, ?_, huhash⟩
    rw [mem_dedupByHash_iff]
    rw [← huhash] at hu
    exact hu

theorem nodup_hashes_dedupAux : ∀ (fuel : Nat) (l : List VirtualNode),
    ((dedupAux fuel l).map VirtualNode.hashPoint).Nodup := by
  intro fuel
  induction fuel with
  | zero => intro l; cases l <;> simp [dedupAux]
  | succ f ih =>
    intro l
    cases l with
    | nil => simp [dedupAux]
    | cons v rest =>
      simp only [dedupAux, List.map_cons, List.nodup_cons]
      refine ⟨?_, ih _⟩
      intro hmem
      rw [List.mem_map] at hmem
      obtain ⟨u, hu, hueq⟩ := hmem
      have husub : u ∈ rest.filter (fun w => w.hashPoint != v.hashPoint) :=
        (dedupAux_sublist _ _).subset hu
      have hpass := List.of_mem_filter husub
      simp only [bne_iff_ne, ne_eq] at hpass
      exact hpass hueq

theorem nodup_hashes_dedupByHash (l : List VirtualNode) :
    ((dedupByHash l).map VirtualNode.hashPoint).Nodup :=
  nodup_hashes_dedupAux _ _

theorem sorted_dedupByHash {l : List VirtualNode} (h : l.Sorted vnLE) :
    (dedupByHash l).Sorted vnLE :=
  List.Pairwise.sublist (dedupByHash_sublist l) h

end ConsistentHash

namespace ConsistentHash

/-! ### Lemmas about buildRing and RingManager state -/

theorem sorted_insertionSort_vnLE (l : List VirtualNode) :
    (l.insertionSort vnLE).Sorted vnLE := by
  haveI : IsTotal VirtualNode vnLE := ⟨vnLE_total⟩
  haveI : IsTrans VirtualNode vnLE := ⟨fun _ _ _ => vnLE_trans⟩
  exact List.sorted_insertionSort vnLE l

theorem buildRing_sorted (nodes : List Node) (reps : Nat) :
    (buildRing nodes reps).Sorted vnLE :=
  sorted_dedupByHash (sorted_insertionSort_vnLE _)

theorem nodup_hashes_buildRing (nodes : List Node) (reps : Nat) :
    ((buildRing nodes reps).map VirtualNode.hashPoint).Nodup :=
  nodup_hashes_dedupByHash _

theorem owner_mem_of_mem_allVNodes {nodes : List Node} {reps : Nat}
    {v : VirtualNode} (h : v ∈ allVNodes nodes reps) : v.owner ∈ nodes := by
  unfold allVNodes at h
  rw [List.mem_flatMap] at h
  obtain ⟨n, hn, hv⟩ := h
  unfold vnodesOf at hv
  rw [List.mem_map] at hv
  obtain ⟨i, _, rfl⟩ := hv
  exact hn

theorem owner_mem_of_mem_buildRing {nodes : List Node} {reps : Nat}
    {v : VirtualNode} (h : v ∈ buildRing nodes reps) : v.owner ∈ nodes := by
  unfold buildRing at h
  have h1 := (dedupByHash_sublist _).subset h
  exact owner_mem_of_mem_allVNodes ((List.perm_insertionSort vnLE _).subset h1)

theorem buildRing_ne_nil {nodes : List Node} {reps : Nat}
    (hne : nodes ≠ []) (hw : ∀ n ∈ nodes, 1 ≤ n.weight) (hr : 1 ≤ reps) :
    buildRing nodes reps ≠ [] := by
  obtain ⟨n, ns, rfl⟩ := List.exists_cons_of_ne_nil hne
  have hlen : 0 < reps * n.weight :=
    Nat.mul_pos hr (hw n (List.mem_cons_self n ns))
  have hmem : (⟨hash (n.id ++ "#" ++ toString 0), n⟩ : VirtualNode) ∈
      allVNodes (n :: ns) reps := by
    unfold allVNodes vnodesOf
    rw [List.mem_flatMap]
    exact ⟨n, List.mem_cons_self n ns,
      List.mem_map.mpr ⟨0, List.mem_range.mpr hlen, rfl⟩⟩
  intro hnil
  unfold buildRing at hnil
  cases hs : (allVNodes (n :: ns) reps).insertionSort vnLE with
  | nil =>
    have hmem' : (⟨hash (n.id ++ "#" ++ toString 0), n⟩ : VirtualNode) ∈
        (allVNodes (n :: ns) reps).insertionSort vnLE :=
      (List.perm_insertionSort vnLE _).symm.subset hmem
    rw [hs] at hmem'
    simp at hmem'
  | cons v rest =>
    rw [hs, dedupByHash_cons] at hnil
    exact List.cons_ne_nil _ _ hnil

theorem nodupIds_inj {ns : List Node} (h : (ns.map Node.id).Nodup) :
    ∀ a ∈ ns, ∀ b ∈ ns, a.id = b.id → a = b :=
  fun a ha b hb heq => List.inj_on_of_nodup_map h ha hb heq

/-- `buildRing` depends only on the node set: permuting the (duplicate-free)
node list leaves the Ring unchanged. -/
theorem buildRing_perm {ns₁ ns₂ : List Node} {reps : Nat}
    (hperm : ns₁.Perm ns₂) (hnodup : (ns₁.map Node.id).Nodup) :
    buildRing ns₁ reps = buildRing ns₂ reps := by
  unfold buildRing
  congr 1
  have hav : (allVNodes ns₁ reps).Perm (allVNodes ns₂ reps) :=
    hperm.flatMap_right (vnodesOf reps)
  have hp : ((allVNodes ns₁ reps).insertionSort vnLE).Perm
      ((allVNodes ns₂ reps).insertionSort vnLE) :=
    (List.perm_insertionSort vnLE _).trans
      (hav.trans (List.perm_insertionSort vnLE _).symm)
  apply sorted_perm_eq ?_ hp (sorted_insertionSort_vnLE _)
    (sorted_insertionSort_vnLE _)
  intro x hx y hy hxy hyx
  have hx' : x ∈ allVNodes ns₁ reps := (List.perm_insertionSort vnLE _).subset hx
  have hy' : y ∈ allVNodes ns₁ reps := (List.perm_insertionSort vnLE _).subset hy
  obtain ⟨hh, hid⟩ := vnLE_antisymm_ids hxy hyx
  have howner : x.owner = y.owner :=
    nodupIds_inj hnodup x.owner (owner_mem_of_mem_allVNodes hx')
      y.owner (owner_mem_of_mem_allVNodes hy') hid
  cases x
  cases y
  simp_all

/-- Every reachable RingManager state is well-formed. -/
theorem Reachable.wf {rm : RingManager} (h : Reachable rm) : WF rm := by
  induction h with
  | create cfg reps hv hr => exact ⟨rfl, hv, hr⟩
  | add rm n _ hw ih =>
    obtain ⟨hring, hvalid, hreps⟩ := ih
    unfold addNode
    by_cases hdup : rm.nodes.any (fun m => m.id == n.id)
    · simp only [hdup, if_true]
      exact ⟨hring, hvalid, hreps⟩
    · simp only [hdup, if_false, Bool.false_eq_true]
      refine ⟨rfl, ⟨?_, ?_⟩, hreps⟩
      · intro m hm
        rcases List.mem_append.mp hm with h' | h'
        · exact hvalid.1 m h'
        · have : m = n := by simpa using h'
          subst this
          exact hw
      · have hnotin : n.id ∉ rm.nodes.map Node.id := by
          intro hmem
          rw [List.mem_map] at hmem
          obtain ⟨m, hm, hmeq⟩ := hmem
          apply hdup
          rw [List.any_eq_true]
          exact ⟨m, hm, by simp [hmeq]⟩
        rw [List.map_append]
        apply List.Nodup.append hvalid.2 (List.nodup_singleton _)
        intro a ha hb
        have : a = n.id := by simpa using hb
        subst this
        exact hnotin ha
  | remove rm id _ ih =>
    obtain ⟨hring, hvalid, hreps⟩ := ih
    unfold removeNode
    by_cases hmem : rm.nodes.any (fun m => m.id == id)
    · simp only [hmem, if_true]
      refine ⟨rfl, ⟨?_, ?_⟩, hreps⟩
      · intro m hm
        exact hvalid.1 m (List.mem_of_mem_filter hm)
      · exact List.Nodup.sublist ((List.filter_sublist _).map _) hvalid.2
    · simp only [hmem, if_false, Bool.false_eq_true]
      exact ⟨hring, hvalid, hreps⟩

end ConsistentHash

namespace ConsistentHash

/-! ### Lemmas about Select -/

theorem select_def (rm : RingManager) (health : String → Bool) (key : String) :
    select rm health key =
      match (rm.ring.rotate
          (rm.ring.findIdx (fun v => decide (hash key ≤ v.hashPoint)))).find?
          (fun v => health v.owner.id) with
      | some v => .ok v.owner
      | none => .error .NoAvailableNode := rfl

theorem find?_eq_getElem?_findIdx {α : Type} (p : α → Bool) (l : List α) :
    l.find? p = l[l.findIdx p]? := by
  induction l with
  | nil => rfl
  | cons a t ih =>
    by_cases h : p a
    · simp [List.find?_cons_of_pos _ h, List.findIdx_cons, h]
    · simp [List.find?_cons_of_neg _ h, List.findIdx_cons, h, ih]

/-- Rotating a list to its first `p`-match and taking the head is `find?`,
falling back to the unrotated head when nothing matches. -/
theorem rotate_findIdx_head? {α : Type} (p : α → Bool) (l : List α) :
    (l.rotate (l.findIdx p)).head? = (l.find? p).or l.head? := by
  by_cases hex : ∃ x ∈ l, p x
  · have hlt : l.findIdx p < l.length := List.findIdx_lt_length.mpr hex
    rw [List.rotate_eq_drop_append_take (le_of_lt hlt), List.head?_append,
      List.drop_eq_getElem_cons hlt, find?_eq_getElem?_findIdx,
      List.getElem?_eq_getElem hlt]
    simp
  · have hnone : l.find? p = none :=
      List.find?_eq_none.mpr (fun x hx hpx => hex ⟨x, hx, hpx⟩)
    have hlen : l.findIdx p = l.length := by
      apply List.findIdx_eq_length_of_false
      intro x hx
      rcases Bool.eq_false_or_eq_true (p x) with h | h
      · exact absurd ⟨x, hx, h⟩ hex
      · exact h
    rw [hlen, List.rotate_length, hnone, Option.none_or]

theorem select_eq_error_iff (rm : RingManager) (health : String → Bool)
    (key : String) :
    select rm health key = .error .NoAvailableNode ↔
      ∀ v ∈ rm.ring, health v.owner.id = false := by
  rw [select_def]
  cases hf : (rm.ring.rotate
      (rm.ring.findIdx (fun v => decide (hash key ≤ v.hashPoint)))).find?
      (fun v => health v.owner.id) with
  | none =>
    refine ⟨fun _ v hv => ?_, fun _ => rfl⟩
    have h := List.find?_eq_none.mp hf v (List.mem_rotate.mpr hv)
    simpa using h
  | some v =>
    refine ⟨fun h => Except.noConfusion h, fun hall => ?_⟩
    have hv := List.find?_some hf
    have hmem := List.mem_of_find?_eq_some hf
    rw [List.mem_rotate] at hmem
    rw [hall v hmem] at hv
    cases hv

theorem select_ok_facts {rm : RingManager} {health : String → Bool}
    {key : String} {n : Node} (h : select rm health key = .ok n) :
    ∃ v ∈ rm.ring, v.owner = n ∧ health n.id = true := by
  rw [select_def] at h
  cases hf : (rm.ring.rotate
      (rm.ring.findIdx (fun v => decide (hash key ≤ v.hashPoint)))).find?
      (fun v => health v.owner.id) with
  | none =>
    rw [hf] at h
    exact Except.noConfusion h
  | some v =>
    rw [hf] at h
    injection h with h'
    have hmem := List.mem_of_find?_eq_some hf
    rw [List.mem_rotate] at hmem
    have hh := List.find?_some hf
    rw [h'] at hh
    exact ⟨v, hmem, h', hh⟩

theorem select_ok_of_healthy {rm : RingManager} {health : String → Bool}
    (key : String) (hex : ∃ v ∈ rm.ring, health v.owner.id = true) :
    ∃ n, select rm health key = .ok n ∧
      ∃ v ∈ rm.ring, v.owner = n ∧ health n.id = true := by
  rw [select_def]
  cases hf : (rm.ring.rotate
      (rm.ring.findIdx (fun v => decide (hash key ≤ v.hashPoint)))).find?
      (fun v => health v.owner.id) with
  | none =>
    obtain ⟨v, hv, hh⟩ := hex
    have h := List.find?_eq_none.mp hf v (List.mem_rotate.mpr hv)
    rw [hh] at h
    cases h rfl
  | some v =>
    have hmem := List.mem_of_find?_eq_some hf
    rw [List.mem_rotate] at hmem
    have hh := List.find?_some hf
    exact ⟨v.owner, rfl, v, hmem, rfl, hh⟩

theorem find?_of_all {α : Type} {p : α → Bool} {l : List α}
    (h : ∀ x ∈ l, p x = true) : l.find? p = l.head? := by
  cases l with
  | nil => rfl
  | cons a t =>
    rw [List.find?_cons_of_pos _ (h a (List.mem_cons_self a t))]
    rfl

/-- With every ring owner healthy, Select is the pure ring lookup: the first
VirtualNode at or after the key's hash, wrapping to the ring's head. -/
theorem select_all_healthy {rm : RingManager} {health : String → Bool}
    {key : String} (hall : ∀ v ∈ rm.ring, health v.owner.id = true) :
    select rm health key =
      match (rm.ring.find? (fun v => decide (hash key ≤ v.hashPoint))).or
          rm.ring.head? with
      | some v => .ok v.owner
      | none => .error .NoAvailableNode := by
  rw [select_def]
  have h1 : (rm.ring.rotate
      (rm.ring.findIdx (fun v => decide (hash key ≤ v.hashPoint)))).find?
      (fun v => health v.owner.id) =
      (rm.ring.rotate
        (rm.ring.findIdx (fun v => decide (hash key ≤ v.hashPoint)))).head? :=
    find?_of_all (fun x hx => hall x (List.mem_rotate.mp hx))
  rw [h1, rotate_findIdx_head?]

theorem select_health_congr {rm : RingManager} {h₁ h₂ : String → Bool}
    (hh : ∀ s, h₁ s = h₂ s) (key : String) :
    select rm h₁ key = select rm h₂ key := by
  have : h₁ = h₂ := funext hh
  rw [this]

theorem find?_first_min {p : VirtualNode → Bool} :
    ∀ {D : List VirtualNode},
      D.Pairwise (fun a b => a.hashPoint < b.hashPoint) →
      ∀ {v}, D.find? p = some v → ∀ w ∈ D, p w = true →
        v.hashPoint ≤ w.hashPoint := by
  intro D
  induction D with
  | nil =>
    intro _ v h
    cases h
  | cons a t ih =>
    intro hp v hf w hw hpw
    rw [List.pairwise_cons] at hp
    by_cases hpa : p a = true
    · rw [List.find?_cons_of_pos _ hpa] at hf
      injection hf with hf
      subst hf
      rcases List.mem_cons.mp hw with rfl | hw'
      · exact le_rfl
      · exact le_of_lt (hp.1 w hw')
    · rw [List.find?_cons_of_neg _ hpa] at hf
      rcases List.mem_cons.mp hw with rfl | hw'
      · exact absurd hpw hpa
      · exact ih hp.2 hf w hw' hpw

theorem head?_min {D : List VirtualNode}
    (hp : D.Pairwise (fun a b => a.hashPoint < b.hashPoint)) {v : VirtualNode}
    (hh : D.head? = some v) : ∀ w ∈ D, v.hashPoint ≤ w.hashPoint := by
  cases D with
  | nil => cases hh
  | cons a t =>
    injection hh with hh
    subst hh
    intro w hw
    rcases List.mem_cons.mp hw with rfl | hw'
    · exact le_rfl
    · exact le_of_lt ((List.pairwise_cons.mp hp).1 w hw')

theorem pairwise_hash_lt {D : List VirtualNode} (hs : D.Sorted vnLE)
    (hn : (D.map VirtualNode.hashPoint).Nodup) :
    D.Pairwise (fun a b => a.hashPoint < b.hashPoint) := by
  induction D with
  | nil => exact List.Pairwise.nil
  | cons a t ih =>
    rw [List.sorted_cons] at hs
    rw [List.map_cons, List.nodup_cons] at hn
    refine List.Pairwise.cons ?_ (ih hs.2 hn.2)
    intro b hb
    have hle := hs.1 b hb
    unfold vnLE at hle
    rcases hle with h | ⟨he, _⟩
    · exact h
    · exfalso
      apply hn.1
      rw [he]
      exact List.mem_map.mpr ⟨b, hb, rfl⟩

theorem eq_of_hash_eq {D : List VirtualNode}
    (hn : (D.map VirtualNode.hashPoint).Nodup) {v w : VirtualNode}
    (hv : v ∈ D) (hw : w ∈ D) (h : v.hashPoint = w.hashPoint) : v = w :=
  List.inj_on_of_nodup_map hn hv hw h

end ConsistentHash

namespace ConsistentHash

/-! ### Claims C4, C5, C6, C7 -/

/-- C4: `buildRing` is deterministic — it is a pure function of the node set,
so any two node lists describing the same set (permutations of one another,
with duplicate-free ids) produce identical Rings at every replica count — and
`hash` returns equal outputs for equal input strings.  In this shallow
embedding `hash` is a mathematical function of the string alone, so freedom
from randomized per-process seeding is intrinsic; the substantive content is
the node-set determinism of `buildRing`. -/
theorem C4_buildRing_deterministic :
    (∀ (ns₁ ns₂ : List Node) (reps : Nat), ns₁.Perm ns₂ →
        (ns₁.map Node.id).Nodup → buildRing ns₁ reps = buildRing ns₂ reps) ∧
    (∀ s t : String, s = t → hash s = hash t) :=
  ⟨fun _ _ _ hp hn => buildRing_perm hp hn, fun _ _ h => congrArg hash h⟩

/-- Witness for C4 at a concrete two-node configuration. -/
theorem C4_buildRing_deterministic_witness :
    ([⟨"alpha", "10.0.0.1", 1⟩, ⟨"beta", "10.0.0.2", 2⟩] : List Node).Perm
        [⟨"beta", "10.0.0.2", 2⟩, ⟨"alpha", "10.0.0.1", 1⟩] ∧
    buildRing [⟨"alpha", "10.0.0.1", 1⟩, ⟨"beta", "10.0.0.2", 2⟩] 3 =
      buildRing [⟨"beta", "10.0.0.2", 2⟩, ⟨"alpha", "10.0.0.1", 1⟩] 3 :=
  ⟨by decide, C4_buildRing_deterministic.1 _ _ 3 (by decide) (by decide)⟩

/-- C5: after every operation (construction and any sequence of successful or
failed AddNode/RemoveNode calls), the RingManager's Ring is sorted ascending
by hashPoint with the owner-id tie break, its hashPoints are pairwise
distinct, every VirtualNode's owner is a currently-registered Node, and the
Ring is non-empty whenever at least one Node is registered. -/
theorem C5_ring_invariants {rm : RingManager} (h : Reachable rm) :
    rm.ring.Sorted vnLE ∧
    (rm.ring.map VirtualNode.hashPoint).Nodup ∧
    (∀ v ∈ rm.ring, v.owner ∈ rm.nodes) ∧
    (rm.nodes ≠ [] → rm.ring ≠ []) := by
  obtain ⟨hring, hvalid, hreps⟩ := h.wf
  rw [hring]
  exact ⟨buildRing_sorted _ _, nodup_hashes_buildRing _ _,
    fun v hv => owner_mem_of_mem_buildRing hv,
    fun hne => buildRing_ne_nil hne hvalid.1 hreps⟩

/-- Witness for C5 at a concrete freshly-created RingManager. -/
theorem C5_ring_invariants_witness :
    (RingManager.create [⟨"alpha", "10.0.0.1", 1⟩] 2).ring.Sorted vnLE ∧
    ((RingManager.create [⟨"alpha", "10.0.0.1", 1⟩] 2).ring.map
        VirtualNode.hashPoint).Nodup ∧
    (∀ v ∈ (RingManager.create [⟨"alpha", "10.0.0.1", 1⟩] 2).ring,
        v.owner ∈ (RingManager.create [⟨"alpha", "10.0.0.1", 1⟩] 2).nodes) ∧
    ((RingManager.create [⟨"alpha", "10.0.0.1", 1⟩] 2).nodes ≠ [] →
        (RingManager.create [⟨"alpha", "10.0.0.1", 1⟩] 2).ring ≠ []) :=
  C5_ring_invariants
    (Reachable.create _ 2 (by unfold validNodes; decide) (by decide))

/-- C6: AddNode returns DuplicateNode whenever the node's id is already
registered, RemoveNode returns UnknownNode whenever the id is not registered,
and in both failure cases the state — registered node set and current Ring —
comes back entirely unchanged. -/
theorem C6_failure_no_state_change (rm : RingManager) (n : Node) (s : String) :
    ((∃ m ∈ rm.nodes, m.id = n.id) →
      addNode rm n = (rm, some RingError.DuplicateNode)) ∧
    ((¬ ∃ m ∈ rm.nodes, m.id = s) →
      removeNode rm s = (rm, some RingError.UnknownNode)) := by
  constructor
  · rintro ⟨m, hm, hid⟩
    unfold addNode
    rw [if_pos]
    rw [List.any_eq_true]
    exact ⟨m, hm, by simp [hid]⟩
  · intro hne
    unfold removeNode
    rw [if_neg]
    intro hany
    rw [List.any_eq_true] at hany
    obtain ⟨m, hm, hmeq⟩ := hany
    exact hne ⟨m, hm, by simpa using hmeq⟩

/-- Witness for C6: a duplicate add and an unknown remove on a concrete
one-node manager, both rejected with the state unchanged. -/
theorem C6_failure_no_state_change_witness :
    addNode (RingManager.create [⟨"alpha", "10.0.0.1", 1⟩] 1)
        ⟨"alpha", "10.0.0.9", 2⟩ =
      (RingManager.create [⟨"alpha", "10.0.0.1", 1⟩] 1,
        some RingError.DuplicateNode) ∧
    removeNode (RingManager.create [⟨"alpha", "10.0.0.1", 1⟩] 1) "beta" =
      (RingManager.create [⟨"alpha", "10.0.0.1", 1⟩] 1,
        some RingError.UnknownNode) :=
  ⟨(C6_failure_no_state_change _ _ "beta").1
      ⟨⟨"alpha", "10.0.0.1", 1⟩, by decide, rfl⟩,
    (C6_failure_no_state_change (RingManager.create [⟨"alpha", "10.0.0.1", 1⟩] 1)
        ⟨"alpha", "10.0.0.9", 2⟩ "beta").2 (by decide)⟩

theorem perm_filter_cons {ns : List Node} (hnodup : (ns.map Node.id).Nodup)
    {n : Node} (hn : n ∈ ns) :
    ns.Perm (n :: ns.filter (fun m => m.id != n.id)) := by
  induction ns with
  | nil => cases hn
  | cons a t ih =>
    rw [List.map_cons, List.nodup_cons] at hnodup
    rcases List.mem_cons.mp hn with rfl | hn'
    · have h1 : (n :: t).filter (fun m => m.id != n.id) =
          t.filter (fun m => m.id != n.id) := by
        rw [List.filter_cons_of_neg]
        simp
      rw [h1]
      have ht : t.filter (fun m => m.id != n.id) = t := by
        apply List.filter_eq_self.mpr
        intro m hm
        simp only [bne_iff_ne, ne_eq]
        intro heq
        exact hnodup.1 (heq ▸ List.mem_map.mpr ⟨m, hm, rfl⟩)
      rw [ht]
    · have hfil : (a :: t).filter (fun m => m.id != n.id) =
          a :: t.filter (fun m => m.id != n.id) := by
        rw [List.filter_cons_of_pos]
        simp only [bne_iff_ne, ne_eq]
        intro heq
        exact hnodup.1 (heq ▸ List.mem_map.mpr ⟨n, hn', rfl⟩)
      rw [hfil]
      exact ((ih hnodup.2 hn').cons a).trans (List.Perm.swap n a _)

/-- C7: removing a registered node and re-adding the identical
`{id, address, weight}` succeeds and reproduces the identical Ring the
original configuration had — Ring construction is a pure function of the
registered node set and replica count. -/
theorem C7_remove_add_round_trip {rm : RingManager} (hwf : WF rm) {n : Node}
    (hn : n ∈ rm.nodes) :
    (removeNode rm n.id).2 = none ∧
    (addNode (removeNode rm n.id).1 n).2 = none ∧
    (addNode (removeNode rm n.id).1 n).1.ring = rm.ring := by
  obtain ⟨hring, ⟨hw, hnodup⟩, hreps⟩ := hwf
  have hany : rm.nodes.any (fun m => m.id == n.id) = true := by
    rw [List.any_eq_true]
    exact ⟨n, hn, by simp⟩
  have hrem : removeNode rm n.id =
      (⟨rm.nodes.filter (fun m => m.id != n.id),
        buildRing (rm.nodes.filter (fun m => m.id != n.id)) rm.reps,
        rm.reps⟩, none) := by
    unfold removeNode
    rw [if_pos hany]
  have hnone : (rm.nodes.filter (fun m => m.id != n.id)).any
      (fun m => m.id == n.id) = false := by
    rw [List.any_eq_false]
    intro m hm
    have hpass := List.of_mem_filter hm
    simpa using hpass
  have hperm : (rm.nodes.filter (fun m => m.id != n.id) ++ [n]).Perm rm.nodes :=
    (List.perm_append_singleton n _).trans (perm_filter_cons hnodup hn).symm
  have hnodup' : ((rm.nodes.filter (fun m => m.id != n.id) ++ [n]).map
      Node.id).Nodup :=
    ((hperm.map Node.id).nodup_iff).mpr hnodup
  rw [hrem]
  unfold addNode
  rw [if_neg (by rw [hnone]; exact Bool.false_ne_true)]
  refine ⟨rfl, rfl, ?_⟩
  rw [hring]
  exact buildRing_perm hperm hnodup'

/-- Witness for C7 on a concrete two-node manager, removing and re-adding the
first node. -/
theorem C7_remove_add_round_trip_witness :
    (removeNode (RingManager.create
        [⟨"alpha", "10.0.0.1", 1⟩, ⟨"beta", "10.0.0.2", 2⟩] 2)
        "alpha").2 = none ∧
    (addNode (removeNode (RingManager.create
        [⟨"alpha", "10.0.0.1", 1⟩, ⟨"beta", "10.0.0.2", 2⟩] 2)
        "alpha").1 ⟨"alpha", "10.0.0.1", 1⟩).2 = none ∧
    (addNode (removeNode (RingManager.create
        [⟨"alpha", "10.0.0.1", 1⟩, ⟨"beta", "10.0.0.2", 2⟩] 2)
        "alpha").1 ⟨"alpha", "10.0.0.1", 1⟩).1.ring =
      (RingManager.create
        [⟨"alpha", "10.0.0.1", 1⟩, ⟨"beta", "10.0.0.2", 2⟩] 2).ring :=
  @C7_remove_add_round_trip
    (RingManager.create [⟨"alpha", "10.0.0.1", 1⟩, ⟨"beta", "10.0.0.2", 2⟩] 2)
    ⟨rfl, by unfold validNodes; decide, by decide⟩
    ⟨"alpha", "10.0.0.1", 1⟩ (by decide)

end ConsistentHash

namespace ConsistentHash

/-! ### Claims C1 and C3 -/

/-- C1 (amended): for any well-formed RingManager and any health view, Select
returns some registered alive Node whenever at least one Node owning a point
on the current Ring is alive; it fails with NoAvailableNode exactly when no
Ring point has an alive owner — in particular on every key when zero Nodes
are registered.  The amendment restricts "some registered Node is alive" to
"some Ring-point owner is alive": a registered alive Node whose virtual
points were all discarded as hashPoint collisions owns no Ring point and is
unreachable, which refutes the claim as stated. -/
theorem C1_select_coverage {rm : RingManager} (hwf : WF rm)
    (health : String → Bool) (key : String) :
    ((∃ v ∈ rm.ring, health v.owner.id = true) →
      ∃ n, select rm health key = .ok n ∧ n ∈ rm.nodes ∧ health n.id = true) ∧
    (select rm health key = .error .NoAvailableNode ↔
      ∀ v ∈ rm.ring, health v.owner.id = false) ∧
    (rm.nodes = [] → select rm health key = .error .NoAvailableNode) := by
  refine ⟨?_, select_eq_error_iff rm health key, ?_⟩
  · intro hex
    obtain ⟨n, hsel, v, hv, hveq, hh⟩ := select_ok_of_healthy key hex
    refine ⟨n, hsel, ?_, hh⟩
    have hmem := owner_mem_of_mem_buildRing (hwf.1 ▸ hv)
    rwa [hveq] at hmem
  · intro hnil
    rw [select_eq_error_iff]
    intro v hv
    exfalso
    rw [hwf.1, hnil] at hv
    exact List.not_mem_nil v hv

/-- Witness for the amended C1 on a concrete healthy one-node manager. -/
theorem C1_select_coverage_witness :
    ((∃ v ∈ (RingManager.create [⟨"alpha", "10.0.0.1", 1⟩] 2).ring,
        (fun _ => true) v.owner.id = true) →
      ∃ n, select (RingManager.create [⟨"alpha", "10.0.0.1", 1⟩] 2)
          (fun _ => true) "k1" = .ok n ∧
        n ∈ (RingManager.create [⟨"alpha", "10.0.0.1", 1⟩] 2).nodes ∧
        (fun _ => true) n.id = true) ∧
    (select (RingManager.create [⟨"alpha", "10.0.0.1", 1⟩] 2)
        (fun _ => true) "k1" = .error .NoAvailableNode ↔
      ∀ v ∈ (RingManager.create [⟨"alpha", "10.0.0.1", 1⟩] 2).ring,
        (fun _ => true) v.owner.id = false) ∧
    ((RingManager.create [⟨"alpha", "10.0.0.1", 1⟩] 2).nodes = [] →
      select (RingManager.create [⟨"alpha", "10.0.0.1", 1⟩] 2)
        (fun _ => true) "k1" = .error .NoAvailableNode) :=
  C1_select_coverage ⟨rfl, by unfold validNodes; decide, by decide⟩
    (fun _ => true) "k1"

/-- Counterexample to C1 as stated: in the reachable two-node manager below,
node "tbdxatiq" is registered and alive, yet Select answers NoAvailableNode.
"tbdxatiq"'s only virtual point hash-collides with "nakmvxxv"'s
(hash "nakmvxxv#0" = hash "tbdxatiq#0" = 3080725643), the sort tie-break
keeps the lexicographically smaller owner "nakmvxxv", and that sole surviving
Ring owner is unhealthy. -/
theorem C1_select_coverage_counterexample :
    Reachable (RingManager.create
      [⟨"nakmvxxv", "10.0.0.1", 1⟩, ⟨"tbdxatiq", "10.0.0.2", 1⟩] 1) ∧
    (⟨"tbdxatiq", "10.0.0.2", 1⟩ : Node) ∈
      (RingManager.create
        [⟨"nakmvxxv", "10.0.0.1", 1⟩, ⟨"tbdxatiq", "10.0.0.2", 1⟩] 1).nodes ∧
    (fun s => s == "tbdxatiq") (Node.id ⟨"tbdxatiq", "10.0.0.2", 1⟩) = true ∧
    select (RingManager.create
        [⟨"nakmvxxv", "10.0.0.1", 1⟩, ⟨"tbdxatiq", "10.0.0.2", 1⟩] 1)
      (fun s => s == "tbdxatiq") "somekey" = .error .NoAvailableNode :=
  ⟨Reachable.create _ 1 (by unfold validNodes; decide) (by decide),
    by decide, by decide, rfl⟩

/-- C3 (amended): take a well-formed RingManager holding exactly two Nodes
with distinct ids, both alive under the health view `h0`, and suppose the
second Node owns at least one Ring point.  Marking the first unhealthy —
with no AddNode/RemoveNode call, the manager and hence the Ring snapshot
unchanged, only the health view changing — routes every key (in particular
every key previously routed to the first Node) to the second Node and only
it; marking the first healthy again restores the routing of `h0` exactly,
for every key.  The amendment adds the Ring-point proviso for the surviving
Node: if all its virtual points were discarded as hashPoint collisions, the
failover walk finds no healthy owner and fails instead, which refutes the
claim as stated. -/
theorem C3_failover_restore {rm : RingManager} (hwf : WF rm)
    {n1 n2 : Node} (hnodes : rm.nodes = [n1, n2]) (hne : n1.id ≠ n2.id)
    {h0 : String → Bool} (hh1 : h0 n1.id = true) (hh2 : h0 n2.id = true)
    (hex : ∃ v ∈ rm.ring, v.owner.id = n2.id) (key : String) :
    select rm (fun s => if s = n1.id then false else h0 s) key = .ok n2 ∧
    select rm (fun s => if s = n1.id then true else
        (if s = n1.id then false else h0 s)) key = select rm h0 key := by
  constructor
  · have hex1 : ∃ v ∈ rm.ring,
        (fun s => if s = n1.id then false else h0 s) v.owner.id = true := by
      obtain ⟨v, hv, hvid⟩ := hex
      refine ⟨v, hv, ?_⟩
      simp only [hvid]
      rw [if_neg (fun h => hne h.symm)]
      exact hh2
    obtain ⟨n, hsel, v, hv, hveq, hh⟩ :=
      @select_ok_of_healthy rm (fun s => if s = n1.id then false else h0 s)
        key hex1
    have hh' : (if n.id = n1.id then false else h0 n.id) = true := hh
    have hnmem : n ∈ rm.nodes := by
      have hmem := owner_mem_of_mem_buildRing (hwf.1 ▸ hv)
      rwa [hveq] at hmem
    rw [hnodes] at hnmem
    have hnid : n.id ≠ n1.id := by
      intro heq
      rw [if_pos heq] at hh'
      cases hh'
    have hn2 : n = n2 := by
      rcases List.mem_cons.mp hnmem with rfl | h'
      · exact absurd rfl hnid
      · simpa using h'
    rw [← hn2]
    exact hsel
  · apply select_health_congr
    intro s
    by_cases hs : s = n1.id
    · rw [if_pos hs, hs]
      exact hh1.symm
    · rw [if_neg hs, if_neg hs]

/-- Witness for the amended C3 on a concrete collision-free two-node
manager. -/
theorem C3_failover_restore_witness :
    select (RingManager.create
        [⟨"alpha", "10.0.0.1", 1⟩, ⟨"beta", "10.0.0.2", 1⟩] 2)
      (fun s => if s = "alpha" then false else (fun _ => true) s) "k1" =
      .ok ⟨"beta", "10.0.0.2", 1⟩ ∧
    select (RingManager.create
        [⟨"alpha", "10.0.0.1", 1⟩, ⟨"beta", "10.0.0.2", 1⟩] 2)
      (fun s => if s = "alpha" then true else
        (if s = "alpha" then false else (fun _ => true) s)) "k1" =
      select (RingManager.create
        [⟨"alpha", "10.0.0.1", 1⟩, ⟨"beta", "10.0.0.2", 1⟩] 2)
        (fun _ => true) "k1" :=
  @C3_failover_restore
    (RingManager.create [⟨"alpha", "10.0.0.1", 1⟩, ⟨"beta", "10.0.0.2", 1⟩] 2)
    ⟨rfl, by unfold validNodes; decide, by decide⟩
    ⟨"alpha", "10.0.0.1", 1⟩ ⟨"beta", "10.0.0.2", 1⟩ rfl (by decide)
    (fun _ => true) rfl rfl
    ⟨⟨hash "beta#0", ⟨"beta", "10.0.0.2", 1⟩⟩, by decide, rfl⟩ "k1"

/-- Counterexample to C3 as stated: with the colliding two-node ring below,
every key routes to "nakmvxxv" while both Nodes are healthy; marking
"nakmvxxv" unhealthy (no topology call, Ring snapshot unchanged) then yields
NoAvailableNode instead of routing those keys to the healthy "tbdxatiq",
because "tbdxatiq" owns no Ring point — its only virtual point was discarded
in the hash collision with "nakmvxxv"'s. -/
theorem C3_failover_counterexample :
    Reachable (RingManager.create
      [⟨"nakmvxxv", "10.0.0.1", 1⟩, ⟨"tbdxatiq", "10.0.0.2", 1⟩] 1) ∧
    select (RingManager.create
        [⟨"nakmvxxv", "10.0.0.1", 1⟩, ⟨"tbdxatiq", "10.0.0.2", 1⟩] 1)
      (fun _ => true) "somekey" = .ok ⟨"nakmvxxv", "10.0.0.1", 1⟩ ∧
    select (RingManager.create
        [⟨"nakmvxxv", "10.0.0.1", 1⟩, ⟨"tbdxatiq", "10.0.0.2", 1⟩] 1)
      (fun s => s != "nakmvxxv") "somekey" = .error .NoAvailableNode :=
  ⟨Reachable.create _ 1 (by unfold validNodes; decide) (by decide), rfl, rfl⟩

end ConsistentHash

namespace ConsistentHash

/-! ### Claim C2: removal disturbs only the removed node's keys -/

theorem owner_of_mem_vnodesOf {reps : Nat} {a : Node} {v : VirtualNode}
    (h : v ∈ vnodesOf reps a) : v.owner = a := by
  unfold vnodesOf at h
  rw [List.mem_map] at h
  obtain ⟨i, _, rfl⟩ := h
  rfl

/-- Filtering a node out of the node list filters exactly its virtual nodes
out of the generated list. -/
theorem allVNodes_filter (s : String) (ns : List Node) (reps : Nat) :
    allVNodes (ns.filter (fun n => n.id != s)) reps =
      (allVNodes ns reps).filter (fun v => v.owner.id != s) := by
  induction ns with
  | nil => rfl
  | cons a t ih =>
    unfold allVNodes at ih ⊢
    by_cases ha : (a.id != s) = true
    · simp only [List.filter_cons, ha, if_true, List.flatMap_cons,
        List.filter_append, ih]
      congr 1
      symm
      apply List.filter_eq_self.mpr
      intro v hv
      rw [owner_of_mem_vnodesOf hv]
      exact ha
    · have ha' : (a.id != s) = false := by simpa using ha
      simp only [List.filter_cons, ha', Bool.false_eq_true, if_false,
        List.flatMap_cons, List.filter_append, ih]
      have hnil : (vnodesOf reps a).filter (fun v => v.owner.id != s) = [] := by
        rw [List.filter_eq_nil_iff]
        intro v hv
        rw [owner_of_mem_vnodesOf hv]
        exact ha
      rw [hnil, List.nil_append]

/-- On a duplicate-free-id node list, `vnLE` is antisymmetric for virtual
nodes owned by listed nodes. -/
theorem vn_antisymm_on {ns : List Node} (hnodup : (ns.map Node.id).Nodup)
    {x y : VirtualNode} (hx : x.owner ∈ ns) (hy : y.owner ∈ ns)
    (hxy : vnLE x y) (hyx : vnLE y x) : x = y := by
  obtain ⟨hh, hid⟩ := vnLE_antisymm_ids hxy hyx
  have howner : x.owner = y.owner := nodupIds_inj hnodup x.owner hx y.owner hy hid
  cases x
  cases y
  simp_all

/-- Sorting the virtual nodes of the shrunken node list equals filtering the
sorted virtual nodes of the full list. -/
theorem sort_filter_remove {ns : List Node} (hnodup : (ns.map Node.id).Nodup)
    (s : String) (reps : Nat) :
    (allVNodes (ns.filter (fun n => n.id != s)) reps).insertionSort vnLE =
      ((allVNodes ns reps).insertionSort vnLE).filter
        (fun v => v.owner.id != s) := by
  have hperm : ((allVNodes (ns.filter (fun n => n.id != s)) reps).insertionSort
      vnLE).Perm (((allVNodes ns reps).insertionSort vnLE).filter
        (fun v => v.owner.id != s)) := by
    have h2 := allVNodes_filter s ns reps
    have h3 : ((allVNodes ns reps).filter (fun v => v.owner.id != s)).Perm
        (((allVNodes ns reps).insertionSort vnLE).filter
          (fun v => v.owner.id != s)) :=
      (List.perm_insertionSort vnLE (allVNodes ns reps)).symm.filter _
    rw [← h2] at h3
    exact (List.perm_insertionSort vnLE _).trans h3
  apply sorted_perm_eq ?_ hperm (sorted_insertionSort_vnLE _)
    ((sorted_insertionSort_vnLE (allVNodes ns reps)).filter _)
  intro x hx y hy hxy hyx
  have hx' : x.owner ∈ ns := by
    have hxm := (List.perm_insertionSort vnLE _).subset hx
    rw [allVNodes_filter] at hxm
    exact owner_mem_of_mem_allVNodes (List.mem_of_mem_filter hxm)
  have hy' : y.owner ∈ ns := by
    have hym := (List.perm_insertionSort vnLE _).subset hy
    rw [allVNodes_filter] at hym
    exact owner_mem_of_mem_allVNodes (List.mem_of_mem_filter hym)
  exact vn_antisymm_on hnodup hx' hy' hxy hyx

/-- A `find?` hit that survives an unrelated filter is still the first hit in
the filtered list. -/
theorem find?_filter_of_found {α : Type} {p pf : α → Bool} :
    ∀ {l : List α} {v : α}, l.find? p = some v → pf v = true →
      (l.filter pf).find? p = some v := by
  intro l
  induction l with
  | nil =>
    intro v h
    cases h
  | cons a t ih =>
    intro v h hv
    by_cases hpa : p a = true
    · rw [List.find?_cons_of_pos _ hpa] at h
      injection h with h
      subst h
      rw [List.filter_cons_of_pos hv, List.find?_cons_of_pos _ hpa]
    · rw [List.find?_cons_of_neg _ hpa] at h
      by_cases hpf : pf a = true
      · rw [List.filter_cons_of_pos hpf, List.find?_cons_of_neg _ hpa]
        exact ih h hv
      · rw [List.filter_cons_of_neg hpf]
        exact ih h hv

/-- Transfer of the ring lookup (first point at or after `h`, wrapping to the
head) from a ring to a sub-ring: if the looked-up point of `D` survives into
`D'` and every `D'` hashPoint already occurs in `D`, the lookup in `D'`
returns the same point. -/
theorem ringSelect_transfer {D D' : List VirtualNode} {h : Nat}
    {v : VirtualNode}
    (hD : D.Pairwise (fun a b => a.hashPoint < b.hashPoint))
    (hD' : D'.Pairwise (fun a b => a.hashPoint < b.hashPoint))
    (hn' : (D'.map VirtualNode.hashPoint).Nodup)
    (hsub : ∀ w ∈ D', ∃ u ∈ D, u.hashPoint = w.hashPoint)
    (hv' : v ∈ D')
    (hres : (D.find? (fun x => decide (h ≤ x.hashPoint))).or D.head? = some v) :
    (D'.find? (fun x => decide (h ≤ x.hashPoint))).or D'.head? = some v := by
  cases hf : D.find? (fun x => decide (h ≤ x.hashPoint)) with
  | some u =>
    rw [hf] at hres
    have huv : u = v := by injection hres
    subst huv
    have hpv := List.find?_some hf
    have hsome : (D'.find? (fun x => decide (h ≤ x.hashPoint))).isSome := by
      rw [List.find?_isSome]
      exact ⟨u, hv', hpv⟩
    obtain ⟨w, hw⟩ := Option.isSome_iff_exists.mp hsome
    have hwD' := List.mem_of_find?_eq_some hw
    have hwlev : w.hashPoint ≤ u.hashPoint := find?_first_min hD' hw u hv' hpv
    obtain ⟨t, htD, hth⟩ := hsub w hwD'
    have hpw := List.find?_some hw
    have hpt : decide (h ≤ t.hashPoint) = true := by
      rw [hth]
      exact hpw
    have hvlet : u.hashPoint ≤ t.hashPoint := find?_first_min hD hf t htD hpt
    have heq : u.hashPoint = w.hashPoint := le_antisymm (hth ▸ hvlet) hwlev
    have hwu : w = u := eq_of_hash_eq hn' hwD' hv' heq.symm
    rw [hw, hwu]
    rfl
  | none =>
    rw [hf, Option.none_or] at hres
    have hnone' : D'.find? (fun x => decide (h ≤ x.hashPoint)) = none := by
      rw [List.find?_eq_none]
      intro w hw hpw
      obtain ⟨t, htD, hth⟩ := hsub w hw
      apply List.find?_eq_none.mp hf t htD
      rw [hth]
      exact hpw
    rw [hnone', Option.none_or]
    cases hD'head : D'.head? with
    | none =>
      cases D' with
      | nil => cases hv'
      | cons a t => cases hD'head
    | some w =>
      have hwD' : w ∈ D' := by
        cases D' with
        | nil => cases hD'head
        | cons a t =>
          injection hD'head with h'
          subst h'
          exact List.mem_cons_self a t
      have hwlev : w.hashPoint ≤ v.hashPoint := head?_min hD' hD'head v hv'
      obtain ⟨t, htD, hth⟩ := hsub w hwD'
      have hvlet : v.hashPoint ≤ t.hashPoint := head?_min hD hres t htD
      have heq : v.hashPoint = w.hashPoint := le_antisymm (hth ▸ hvlet) hwlev
      rw [eq_of_hash_eq hn' hwD' hv' heq.symm]

/-- C2: with every registered Node healthy, removing a registered Node `m`
succeeds, every key whose Select answer was a Node other than `m` keeps
exactly that answer afterwards, and every post-removal Select answer is one
of the remaining registered Nodes — so only keys previously routed to `m`
change owner, moving to the remaining Nodes. -/
theorem C2_remove_minimal_disruption {rm : RingManager} (hwf : WF rm)
    {m : Node} (hm : m ∈ rm.nodes) {health : String → Bool}
    (hall : ∀ n ∈ rm.nodes, health n.id = true) (key : String) :
    (removeNode rm m.id).2 = none ∧
    (∀ x : Node, select rm health key = .ok x → x.id ≠ m.id →
      select (removeNode rm m.id).1 health key = .ok x) ∧
    (∀ y : Node, select (removeNode rm m.id).1 health key = .ok y →
      y ∈ rm.nodes ∧ y.id ≠ m.id) := by
  obtain ⟨hring, ⟨hw, hnodup⟩, hreps⟩ := hwf
  have hany : rm.nodes.any (fun x => x.id == m.id) = true := by
    rw [List.any_eq_true]
    exact ⟨m, hm, by simp⟩
  have hrem : removeNode rm m.id =
      (⟨rm.nodes.filter (fun x => x.id != m.id),
        buildRing (rm.nodes.filter (fun x => x.id != m.id)) rm.reps,
        rm.reps⟩, none) := by
    unfold removeNode
    rw [if_pos hany]
  rw [hrem]
  have hLfilter : (allVNodes (rm.nodes.filter (fun x => x.id != m.id))
      rm.reps).insertionSort vnLE =
      ((allVNodes rm.nodes rm.reps).insertionSort vnLE).filter
        (fun v => v.owner.id != m.id) :=
    sort_filter_remove hnodup m.id rm.reps
  have hDfilterEq : buildRing (rm.nodes.filter (fun x => x.id != m.id)) rm.reps =
      dedupByHash (((allVNodes rm.nodes rm.reps).insertionSort vnLE).filter
        (fun v => v.owner.id != m.id)) := by
    unfold buildRing
    rw [hLfilter]
  have htransfer : ∀ v ∈ buildRing rm.nodes rm.reps, v.owner.id ≠ m.id →
      v ∈ buildRing (rm.nodes.filter (fun x => x.id != m.id)) rm.reps := by
    intro v hv hvid
    rw [hDfilterEq, mem_dedupByHash_iff]
    unfold buildRing at hv
    rw [mem_dedupByHash_iff] at hv
    exact find?_filter_of_found hv (by simpa using hvid)
  have hsub : ∀ w ∈ buildRing (rm.nodes.filter (fun x => x.id != m.id)) rm.reps,
      ∃ u ∈ buildRing rm.nodes rm.reps, u.hashPoint = w.hashPoint := by
    intro w hw
    rw [hDfilterEq] at hw
    have hwL := List.mem_of_mem_filter ((dedupByHash_sublist _).subset hw)
    unfold buildRing
    exact (exists_hash_dedupByHash _ w.hashPoint).mpr ⟨w, hwL, rfl⟩
  have hallring : ∀ v ∈ rm.ring, health v.owner.id = true := fun v hv =>
    hall _ (owner_mem_of_mem_buildRing (hring ▸ hv))
  have hallring' : ∀ v ∈ buildRing (rm.nodes.filter (fun x => x.id != m.id))
      rm.reps, health v.owner.id = true := fun v hv =>
    hall _ (List.mem_of_mem_filter (owner_mem_of_mem_buildRing hv))
  refine ⟨rfl, ?_, ?_⟩
  · intro x hsel hxid
    rw [select_all_healthy hallring] at hsel
    cases hor : (rm.ring.find? (fun v => decide (hash key ≤ v.hashPoint))).or
        rm.ring.head? with
    | none =>
      rw [hor] at hsel
      exact Except.noConfusion hsel
    | some v =>
      rw [hor] at hsel
      injection hsel with hxeq
      have hvring : v ∈ rm.ring := by
        rcases Option.or_eq_some.mp hor with hfind | ⟨_, hhead⟩
        · exact List.mem_of_find?_eq_some hfind
        · cases hring' : rm.ring with
          | nil =>
            rw [hring'] at hhead
            cases hhead
          | cons a t =>
            rw [hring'] at hhead
            injection hhead with h'
            subst h'
            exact List.mem_cons_self a t
      have hvD : v ∈ buildRing rm.nodes rm.reps := hring ▸ hvring
      have hvD' : v ∈ buildRing (rm.nodes.filter (fun x => x.id != m.id))
          rm.reps := htransfer v hvD (by rw [hxeq]; exact hxid)
      have hor' := ringSelect_transfer
        (pairwise_hash_lt (buildRing_sorted _ _) (nodup_hashes_buildRing _ _))
        (pairwise_hash_lt (buildRing_sorted _ _) (nodup_hashes_buildRing _ _))
        (nodup_hashes_buildRing _ _) hsub hvD' (hring ▸ hor)
      rw [select_all_healthy hallring']
      rw [hor']
      exact congrArg Except.ok hxeq
  · intro y hsel
    obtain ⟨v, hv, hveq, _⟩ := select_ok_facts hsel
    have hmem : v.owner ∈ rm.nodes.filter (fun x => x.id != m.id) :=
      owner_mem_of_mem_buildRing hv
    rw [hveq] at hmem
    refine ⟨List.mem_of_mem_filter hmem, ?_⟩
    have hpass := List.of_mem_filter hmem
    simpa using hpass

end ConsistentHash

namespace ConsistentHash

/-- Witness for C2 on a concrete healthy two-node manager, removing
"beta". -/
theorem C2_remove_minimal_disruption_witness :
    (removeNode (RingManager.create
        [⟨"alpha", "10.0.0.1", 1⟩, ⟨"beta", "10.0.0.2", 1⟩] 2) "beta").2 =
      none ∧
    (∀ x : Node, select (RingManager.create
        [⟨"alpha", "10.0.0.1", 1⟩, ⟨"beta", "10.0.0.2", 1⟩] 2)
        (fun _ => true) "k1" = .ok x → x.id ≠ "beta" →
      select (removeNode (RingManager.create
        [⟨"alpha", "10.0.0.1", 1⟩, ⟨"beta", "10.0.0.2", 1⟩] 2) "beta").1
        (fun _ => true) "k1" = .ok x) ∧
    (∀ y : Node, select (removeNode (RingManager.create
        [⟨"alpha", "10.0.0.1", 1⟩, ⟨"beta", "10.0.0.2", 1⟩] 2) "beta").1
        (fun _ => true) "k1" = .ok y →
      y ∈ (RingManager.create
        [⟨"alpha", "10.0.0.1", 1⟩, ⟨"beta", "10.0.0.2", 1⟩] 2).nodes ∧
      y.id ≠ "beta") :=
  @C2_remove_minimal_disruption
    (RingManager.create [⟨"alpha", "10.0.0.1", 1⟩, ⟨"beta", "10.0.0.2", 1⟩] 2)
    ⟨rfl, by unfold validNodes; decide, by decide⟩
    ⟨"beta", "10.0.0.2", 1⟩ (by decide)
    (fun _ => true) (fun n _ => rfl) "k1"

end ConsistentHash

namespace ExpressApp

/-! ### Claims C8, C9, C10 -/

/-- C8: any error object whose `status` property is absent is answered with
HTTP status 500 — and every AppError is such an object, since its constructor
stores the code in `statusCode` and never sets `status`, so the handler
responds 500 regardless of the statusCode the AppError was constructed
with. -/
theorem C8_appError_status_500 :
    (∀ err : JsError, err.status = none →
      (globalErrorHandler err).status = 500) ∧
    (∀ (message : String) (code : Nat),
      (mkAppError message code).status = none ∧
      (globalErrorHandler (mkAppError message code)).status = 500) := by
  constructor
  · intro err h
    unfold globalErrorHandler jsOrNat
    rw [h]
  · intro message code
    exact ⟨rfl, rfl⟩

/-- Witness for C8: a concrete AppError built with statusCode 404 still gets
answered 500. -/
theorem C8_appError_status_500_witness :
    (mkAppError "not found" 404).status = none ∧
    (globalErrorHandler (mkAppError "not found" 404)).status = 500 :=
  ⟨(C8_appError_status_500.2 "not found" 404).1,
    C8_appError_status_500.1 (mkAppError "not found" 404) rfl⟩

/-- C9: whatever Joi's per-field validators accept, every body that passes
the registration validator carries only the keys username, email, password
and confirmPassword; consequently the `name` the register controller
destructures from such a body is absent (`none`, JavaScript `undefined`). -/
theorem C9_registration_keys_name_undefined
    (fieldOk : String → String → Bool) (body : List (String × String))
    (h : validateRegistration fieldOk body = true) :
    (∀ kv ∈ body, kv.1 ∈ registrationKeys) ∧ registerNameField body = none := by
  unfold validateRegistration at h
  rw [Bool.and_eq_true] at h
  have h1 := h.1
  rw [List.all_eq_true] at h1
  have hkeys : ∀ kv ∈ body, kv.1 ∈ registrationKeys := by
    intro kv hkv
    have h2 := h1 kv hkv
    rw [Bool.and_eq_true] at h2
    have h3 := h2.1
    simpa using h3
  refine ⟨hkeys, ?_⟩
  unfold registerNameField
  rw [List.lookup_eq_none_iff]
  intro p hp
  have hpk := hkeys p hp
  simp only [bne_iff_ne, ne_eq]
  intro heq
  rw [← heq] at hpk
  simp [registrationKeys] at hpk

/-- Witness for C9: a concrete four-key body passes and its `name` lookup is
absent. -/
theorem C9_registration_keys_name_undefined_witness :
    validateRegistration (fun _ _ => true)
        [("username", "alice"), ("email", "alice@mail.test"),
         ("password", "Secret1!"), ("confirmPassword", "Secret1!")] = true ∧
    ((∀ kv ∈ [("username", "alice"), ("email", "alice@mail.test"),
         ("password", "Secret1!"), ("confirmPassword", "Secret1!")],
       kv.1 ∈ registrationKeys) ∧
      registerNameField [("username", "alice"), ("email", "alice@mail.test"),
         ("password", "Secret1!"), ("confirmPassword", "Secret1!")] = none) :=
  ⟨by decide,
    C9_registration_keys_name_undefined (fun _ _ => true) _ (by decide)⟩

/-- C10: for every options argument (the file buffer never enters the upload
options — it only forms the data URI), the payload uploadToCloudinary hands
the uploader carries only the keys folder, resource_type and — when the
publicId option is truthy — public_id; the width, height, crop, quality,
fetch_format and transformation options have no effect on it; and the
payload of uploadProfileImage's 500x500 fill configuration therefore
contains none of those transformation keys. -/
theorem C10_upload_options_ignored (options : UploadOptions)
    (w h : Option Nat) (c q f : Option String) (tr : List (String × String))
    (pid : Option String) :
    (∀ kv ∈ uploadToCloudinaryOptions options,
      kv.1 ∈ ["folder", "resource_type", "public_id"]) ∧
    uploadToCloudinaryOptions
        { options with
          width := w, height := h, crop := c, quality := q,
          fetch_format := f, transformation := tr } =
      uploadToCloudinaryOptions options ∧
    uploadToCloudinaryOptions (uploadProfileImageOptions pid) =
      [("folder", "profiles"), ("resource_type", "image")] ++
        (match pid with
         | some p => if p = "" then [] else [("public_id", p)]
         | none => []) := by
  refine ⟨?_, rfl, rfl⟩
  intro kv hkv
  unfold uploadToCloudinaryOptions at hkv
  rcases List.mem_append.mp hkv with hkv | hkv
  · rcases List.mem_cons.mp hkv with rfl | hkv
    · simp
    · rcases List.mem_cons.mp hkv with rfl | hkv
      · simp
      · cases hkv
  · cases hp : options.publicId with
    | none =>
      rw [hp] at hkv
      cases hkv
    | some p =>
      rw [hp] at hkv
      have hkv' : kv ∈ (if p = "" then ([] : List (String × String))
          else [("public_id", p)]) := hkv
      by_cases hpe : p = ""
      · rw [if_pos hpe] at hkv'
        cases hkv'
      · rw [if_neg hpe] at hkv'
        rcases List.mem_cons.mp hkv' with rfl | hkv''
        · simp
        · cases hkv''

/-- Witness for C10: the profile-image payload for a concrete public id, with
its "folder" entry shown to carry one of the three permitted keys. -/
theorem C10_upload_options_ignored_witness :
    ("folder", "profiles") ∈ uploadToCloudinaryOptions
        (uploadProfileImageOptions (some "user_1")) ∧
    (("folder", "profiles") : String × String).1 ∈
      ["folder", "resource_type", "public_id"] :=
  ⟨by decide,
    (C10_upload_options_ignored (uploadProfileImageOptions (some "user_1"))
        none none none none none [] (some "user_1")).1
      ("folder", "profiles") (by decide)⟩

end ExpressApp
